import Mathlib

/-!
Verification of the per-frame detection pipeline of this repository.

The pipeline exists in two platform copies:
* mobile: `src/mobile/screens/CameraScreen.tsx` (`frameProcessor`, `getProximity`,
  `getDirection`, `buildVoiceAlert`, inline `applyNMS`), with the class vocabulary
  from `src/mobile/services/ObjectDetectionService.ts` (`CLASS_NAMES`);
* web: `src/unnamed/part_004` (`parseYoloToDetections`, `applyNMS`, `boxIoU`,
  `buildVoiceAlert`, the voice-alert timestamp logic inside `detect`).

Numeric values are modelled as exact rationals (`ℚ`).  All constants involved
(0.08, 0.05, 0.12, 0.035, 0.45, 4000, 640, …) and all inputs used in the claims
are exact rationals, and the claims are about comparator strictness and exact
arithmetic, which `ℚ` captures faithfully.
-/

namespace Pipeline

/-- Proximity tier, mobile and web: `'close' | 'medium' | 'far'`. -/
inductive Proximity where
  | close | medium | far
deriving DecidableEq

/-- Direction bucket, mobile and web: `'left' | 'center' | 'right'`. -/
inductive Direction where
  | left | center | right
deriving DecidableEq

/-- The per-frame output unit.  The mobile copy calls the label field `class` and
the box extent fields `width`/`height`; the web copy (`DetectionItem` in
`src/unnamed/part_004`) calls them `label`, `w`, `h`.  The record content is the
same, so one structure embeds both. -/
structure Detection where
  label : String
  score : ℚ
  x : ℚ
  y : ℚ
  w : ℚ
  h : ℚ
  proximity : Proximity
  direction : Direction
deriving DecidableEq

/-- `FRAME_SIZE = 640` (mobile CameraScreen.tsx). -/
def FRAME_SIZE : ℚ := 640

/-- `VOICE_ALERT_INTERVAL_MS = 4000` (both copies). -/
def VOICE_ALERT_INTERVAL_MS : ℚ := 4000

/-- `MIN_CONFIDENCE = 0.08` (both copies). -/
def MIN_CONFIDENCE : ℚ := 0.08

/-- `MIN_CONFIDENCE_PHONE_BOTTLE = 0.05` (both copies). -/
def MIN_CONFIDENCE_PHONE_BOTTLE : ℚ := 0.05

/-- `NMS_IOU_THRESHOLD = 0.45` (both copies). -/
def NMS_IOU_THRESHOLD : ℚ := 0.45

/-- `VOICE_ONLY_CLOSE_AND_AHEAD = true` (both copies). -/
def VOICE_ONLY_CLOSE_AND_AHEAD : Bool := true

/-- `getProximity` (mobile CameraScreen.tsx lines 37-41; identical function in
`src/unnamed/part_004` lines 87-91). -/
def getProximity (areaFrac : ℚ) : Proximity :=
  if areaFrac > 0.12 then .close
  else if areaFrac > 0.035 then .medium
  else .far

/-- `getDirection` (mobile CameraScreen.tsx lines 43-48; identical function in
`src/unnamed/part_004` lines 93-98). -/
def getDirection (centerX frameW : ℚ) : Direction :=
  let third := frameW / 3
  if centerX < third then .left
  else if centerX > 2 * third then .right
  else .center

/-- `boxIoU` (web `src/unnamed/part_004` lines 109-121; the mobile copy inlines
the identical computation inside `applyNMS`, CameraScreen.tsx lines 209-219;
the mobile field names are `width`/`height` for `w`/`h`). -/
def boxIoU (a b : Detection) : ℚ :=
  let interLeft := max a.x b.x
  let interTop := max a.y b.y
  let interRight := min (a.x + a.w) (b.x + b.w)
  let interBottom := min (a.y + a.h) (b.y + b.h)
  let interW := max 0 (interRight - interLeft)
  let interH := max 0 (interBottom - interTop)
  let interArea := interW * interH
  let union := a.w * a.h + b.w * b.h - interArea
  if union > 0 then interArea / union else 0

/-- `buildVoiceAlert` (mobile CameraScreen.tsx lines 50-58; identical logic in
`src/unnamed/part_004` lines 154-163).  The JS default `maxItems = 4` is passed
explicitly by every caller-facing statement below. -/
def buildVoiceAlert (detections : List Detection) (maxItems : ℕ) : String :=
  let candidates :=
    if VOICE_ONLY_CLOSE_AND_AHEAD then
      detections.filter fun d =>
        decide (d.proximity = .close ∧ d.direction = .center)
    else
      detections.filter fun d =>
        decide (d.proximity = .close ∨ d.proximity = .medium)
  let toAnnounce := candidates.take maxItems
  if toAnnounce.isEmpty then ""
  else
    let parts := toAnnounce.map fun d => d.label ++ " ahead"
    "Caution. " ++ String.intercalate ". " parts ++ "."

/-! ### Stable sorting

JS `Array.prototype.sort` is stable (ES2019).  A stable comparator sort is
modelled by insertion sort with the relation `le a b` meaning
"comparator(a,b) ≤ 0", i.e. `a` may stay in front of `b`. -/

/-- Insert `a` into `l` in front of the first element `b` with `le a b`. -/
def insertSorted (le : Detection → Detection → Prop) [DecidableRel le]
    (a : Detection) : List Detection → List Detection
  | [] => [a]
  | b :: l => if le a b then a :: b :: l else b :: insertSorted le a l

/-- Stable sort by the "may precede" relation `le`: each element is inserted
into the sorted tail, landing in front of all tied elements that originally
came after it. -/
def stableSort (le : Detection → Detection → Prop) [DecidableRel le] :
    List Detection → List Detection
  | [] => []
  | a :: l => insertSorted le a (stableSort le l)

/-- The mobile NMS pre-pass comparator
`(a, b) => (a.class === b.class ? b.score - a.score : (a.class < b.class ? -1 : 1))`
(CameraScreen.tsx line 220), as the relation "`a` may precede `b`"
(comparator value ≤ 0). -/
def classLe (a b : Detection) : Prop :=
  if a.label = b.label then b.score ≤ a.score else a.label < b.label

instance : DecidableRel classLe := fun a b => by
  unfold classLe; infer_instance

/-- The score comparator `(a, b) => b.score - a.score` of both copies' final
sort (CameraScreen.tsx line 233, part_004 line 150), as "`a` may precede `b`". -/
def scoreLe (a b : Detection) : Prop := b.score ≤ a.score

instance : DecidableRel scoreLe := fun a b => by
  unfold scoreLe; infer_instance

/-! ### Greedy suppression loops -/

/-- One greedy suppression pass: keep `d` unless some already-kept `k`
satisfies `sup d k`; kept items are appended in processing order.  This is the
`for`-loop of both `applyNMS` copies, with `sup` the body of the inner loop. -/
def greedyKeep (sup : Detection → Detection → Prop)
    [∀ d k, Decidable (sup d k)] :
    List Detection → List Detection → List Detection
  | kept, [] => kept
  | kept, d :: rest =>
      if ∃ k ∈ kept, sup d k then greedyKeep sup kept rest
      else greedyKeep sup (kept ++ [d]) rest

/-- Mobile suppression test (CameraScreen.tsx line 226):
`kept[k].class === d.class && boxIoU(d, kept[k]) > NMS_IOU_THRESHOLD`. -/
def mobileSup (d k : Detection) : Prop :=
  k.label = d.label ∧ NMS_IOU_THRESHOLD < boxIoU d k

instance : ∀ d k, Decidable (mobileSup d k) := fun d k => by
  unfold mobileSup; infer_instance

/-- Web suppression test (part_004 line 141), used inside a single-label
partition: `boxIoU(d, k) > NMS_IOU_THRESHOLD`. -/
def webSup (d k : Detection) : Prop :=
  NMS_IOU_THRESHOLD < boxIoU d k

instance : ∀ d k, Decidable (webSup d k) := fun d k => by
  unfold webSup; infer_instance

/-- Mobile `applyNMS` (CameraScreen.tsx lines 207-234): early return on length
≤ 1; otherwise sort by class-then-descending-score, greedily keep candidates
not suppressed by an already-kept same-class candidate, and re-sort the kept
list by descending score. -/
def applyNMSMobile (items : List Detection) : List Detection :=
  if items.length ≤ 1 then items
  else stableSort scoreLe (greedyKeep mobileSup [] (stableSort classLe items))

/-- The labels of `items` in first-occurrence order, without duplicates: the
iteration order of the web `byLabel` JS `Map` (part_004 lines 128-135). -/
def firstLabels : List Detection → List String
  | [] => []
  | d :: rest => d.label :: (firstLabels rest).filter (· ≠ d.label)

/-- Web `applyNMS` (part_004 lines 126-151): early return on length ≤ 1;
otherwise partition by label in first-occurrence order, sort each partition by
descending score, run the greedy pass per partition, concatenate, and sort the
result by descending score. -/
def applyNMSWeb (items : List Detection) : List Detection :=
  if items.length ≤ 1 then items
  else
    let out := (firstLabels items).map
      (fun l => greedyKeep webSup []
        (stableSort scoreLe (items.filter (fun d => d.label = l))))
    stableSort scoreLe out.flatten

/-! ### Mobile tensor decoder

`frameProcessor` (CameraScreen.tsx lines 119-204).  The raw model output is a
typed array read by plain indexing; a JS read past the end yields `undefined`
(`NaN` after `Number(...)`), which fails every `>` comparison — modelled by an
`Option ℚ` read whose `none` fails the gate.  `CLASS_NAMES` is the 80-entry
COCO list of `ObjectDetectionService.ts` (identical to the list in part_004). -/

/-- A raw model-output buffer: element count plus the value at each index.
Only indices `< count` exist; reads beyond return JS `undefined`. -/
structure RawOutput where
  count : ℕ
  val : ℕ → ℚ

/-- In-range read; `none` is a JS `undefined` read. -/
def RawOutput.read? (buf : RawOutput) (i : ℕ) : Option ℚ :=
  if i < buf.count then some (buf.val i) else none

/-- Read with default 0; used only where a smaller index is already known to be
in range (the box fields of a row whose score read succeeded). -/
def RawOutput.read (buf : RawOutput) (i : ℕ) : ℚ :=
  if i < buf.count then buf.val i else 0

/-- The COCO `CLASS_NAMES` list (ObjectDetectionService.ts lines 6-15 and
part_004 lines 9-18; both copies are character-identical). -/
def CLASS_NAMES : List String :=
  ["person", "bicycle", "car", "motorcycle", "airplane", "bus", "train",
   "truck", "boat", "traffic light", "fire hydrant", "stop sign",
   "parking meter", "bench", "bird", "cat", "dog", "horse", "sheep", "cow",
   "elephant", "bear", "zebra", "giraffe", "backpack", "umbrella", "handbag",
   "tie", "suitcase", "frisbee", "skis", "snowboard", "sports ball", "kite",
   "baseball bat", "baseball glove", "skateboard", "surfboard",
   "tennis racket", "bottle", "wine glass", "cup", "fork", "knife", "spoon",
   "bowl", "banana", "apple", "sandwich", "orange", "broccoli", "carrot",
   "hot dog", "pizza", "donut", "cake", "chair", "couch", "potted plant",
   "bed", "dining table", "toilet", "tv", "laptop", "mouse", "remote",
   "keyboard", "cell phone", "microwave", "oven", "toaster", "sink",
   "refrigerator", "book", "clock", "vase", "scissors", "teddy bear",
   "hair drier", "toothbrush"]

/-- `CLASS_NAMES[idx] || 'unknown'` for an integer index: any index outside the
vocabulary (negative, too large, or from an out-of-range read) resolves to
`"unknown"`.  (No entry of `CLASS_NAMES` is the empty string, so JS `||` fires
exactly on `undefined`.) -/
def classNameAt (idx : ℤ) : String :=
  if h : 0 ≤ idx ∧ idx.toNat < CLASS_NAMES.length then
    CLASS_NAMES.get ⟨idx.toNat, h.2⟩
  else "unknown"

/-- The per-class minimum confidence: `rawClass === 'cell phone' || rawClass
=== 'bottle'` selects `MIN_CONFIDENCE_PHONE_BOTTLE`, every other class uses
`MIN_CONFIDENCE` (CameraScreen.tsx lines 135-136 and 182-183). -/
def minConfFor (rawClass : String) : ℚ :=
  if rawClass = "cell phone" ∨ rawClass = "bottle" then
    MIN_CONFIDENCE_PHONE_BOTTLE
  else MIN_CONFIDENCE

/-- One row of the mobile end-to-end branch (CameraScreen.tsx lines 130-157):
offset `6*i`, fields `[cx, cy, w, h, score, classIndex]`.  The class read uses
JS `Math.round` (`= ⌊v + 1/2⌋`, which `round` on `ℚ` matches); an out-of-range
class read (`Math.round(undefined)` is `NaN`, `CLASS_NAMES[NaN]` is
`undefined`) resolves to `"unknown"`.  A candidate is pushed only when
`score > minConf`; an out-of-range score read (`NaN`) never passes.  When the
score read is in range, the four box reads at smaller offsets are in range
too, so reading them with default 0 is exact.  `displayLabel` stands for the
`DISPLAY_LABELS[rawClass] ?? rawClass` lookup; the mobile `DISPLAY_LABELS`
table is imported from `ObjectDetectionService.ts` but is not among the
provided sources, so the lookup is kept as an arbitrary static function. -/
def rowCandidate (displayLabel : String → String) (buf : RawOutput)
    (i : ℕ) : Option Detection :=
  let offset := 6 * i
  let rawClass :=
    match buf.read? (offset + 5) with
    | some v => classNameAt (round v)
    | none => "unknown"
  let minConf := minConfFor rawClass
  match buf.read? (offset + 4) with
  | none => none
  | some score =>
    if score > minConf then
      let cx := buf.read (offset + 0)
      let cy := buf.read (offset + 1)
      let w := buf.read (offset + 2)
      let h := buf.read (offset + 3)
      let x := cx - w / 2
      let y := cy - h / 2
      some
        { label := displayLabel rawClass
          score := score
          x := x, y := y, w := w, h := h
          proximity := getProximity ((w * h) / (FRAME_SIZE * FRAME_SIZE))
          direction := getDirection (x + w / 2) FRAME_SIZE }
    else none

/-- Iteration count of the JS loop `for (let i = 0; i < numDets; i++)` with the
fractional bound `numDets = numElements / 6`: the naturals below `count / 6`,
i.e. `⌈count / 6⌉`. -/
def e2eRows (count : ℕ) : ℕ := (count + 5) / 6

/-- Mobile end-to-end branch (`numElements < 5000`, CameraScreen.tsx lines
125-157). -/
def parseEndToEnd (displayLabel : String → String) (buf : RawOutput) :
    List Detection :=
  (List.range (e2eRows buf.count)).filterMap (rowCandidate displayLabel buf)

/-- The arg-max fold of the mobile dense branch (CameraScreen.tsx lines
168-179): over classes `c = 0..79`, take the score read
`data[(4 + c) * 8400 + i]` whenever it strictly exceeds the running maximum
(initially `0`, class `-1`); an out-of-range read (`NaN`) never exceeds. -/
def denseArgMax (buf : RawOutput) (i : ℕ) : ℚ × ℤ :=
  (List.range 80).foldl
    (fun acc c =>
      match buf.read? ((4 + c) * 8400 + i) with
      | some s => if s > acc.1 then (s, (c : ℤ)) else acc
      | none => acc)
    (0, -1)

/-- One anchor of the mobile dense branch (CameraScreen.tsx lines 167-203):
`numAnchors = 8400`, `numClass = 80` are hard-coded.  A candidate is pushed
only when `maxScore > minConf`; when it is, the winning score read was in
range, hence so are the four box reads at smaller indices, so default-0 reads
are exact. -/
def anchorCandidate (displayLabel : String → String) (buf : RawOutput)
    (i : ℕ) : Option Detection :=
  let m := denseArgMax buf i
  let rawClass := classNameAt m.2
  let minConf := minConfFor rawClass
  if m.1 > minConf then
    let cx := buf.read (0 * 8400 + i)
    let cy := buf.read (1 * 8400 + i)
    let w := buf.read (2 * 8400 + i)
    let h := buf.read (3 * 8400 + i)
    let x := cx - w / 2
    let y := cy - h / 2
    some
      { label := displayLabel rawClass
        score := m.1
        x := x, y := y, w := w, h := h
        proximity := getProximity ((w * h) / (FRAME_SIZE * FRAME_SIZE))
        direction := getDirection cx FRAME_SIZE }
  else none

/-- Mobile dense-anchor branch (`numElements >= 5000`, CameraScreen.tsx lines
158-204). -/
def parseDense (displayLabel : String → String) (buf : RawOutput) :
    List Detection :=
  (List.range 8400).filterMap (anchorCandidate displayLabel buf)

/-- The mobile decoder dispatch (CameraScreen.tsx lines 122-204): the layout is
chosen by the raw element count alone, `numElements < 5000` selecting the
end-to-end branch and every other count the dense-anchor branch. -/
def parseMobile (displayLabel : String → String) (buf : RawOutput) :
    List Detection :=
  if buf.count < 5000 then parseEndToEnd displayLabel buf
  else parseDense displayLabel buf

/-! ### Web tensor decoder

`parseYoloToDetections` (part_004 lines 233-293).  Its input is an
already-nested `number[][]`; the layout is chosen by the array shape. -/

/-- `PRIORITY_CLASSES = ["cell phone", "bottle"]` (part_004 line 65). -/
def PRIORITY_CLASSES : List String := ["cell phone", "bottle"]

/-- The web `DISPLAY_LABELS` table (part_004 lines 21-55); `none` for a class
with no friendly name. -/
def DISPLAY_LABELS_WEB : String → Option String
  | "cell phone" => some "phone"
  | "book" => some "book / paper"
  | "laptop" => some "laptop / computer"
  | "dining table" => some "table"
  | "bottle" => some "bottle / water bottle"
  | "cup" => some "cup / mug"
  | "wine glass" => some "glass"
  | "remote" => some "remote"
  | "handbag" => some "bag"
  | "backpack" => some "backpack / bag"
  | "suitcase" => some "bag"
  | "tv" => some "TV / monitor"
  | "keyboard" => some "keyboard"
  | "mouse" => some "mouse"
  | "chair" => some "chair"
  | "couch" => some "couch / sofa"
  | "potted plant" => some "plant"
  | "toilet" => some "toilet"
  | "sink" => some "sink"
  | "refrigerator" => some "refrigerator"
  | "oven" => some "oven"
  | "microwave" => some "microwave"
  | "toaster" => some "toaster"
  | "clock" => some "clock"
  | "fork" => some "fork"
  | "knife" => some "knife"
  | "spoon" => some "spoon"
  | "bowl" => some "bowl"
  | "apple" => some "apple"
  | "banana" => some "banana"
  | "orange" => some "orange"
  | "pizza" => some "pizza"
  | "sandwich" => some "sandwich"
  | _ => none

/-- JS `names[cls]` for an integer index: `none` when out of range. -/
def webNameAt (names : List String) (cls : ℤ) : Option String :=
  if h : 0 ≤ cls ∧ cls.toNat < names.length then
    some (names.get ⟨cls.toNat, h.2⟩)
  else none

/-- JS `DISPLAY_LABELS[names[cls]] ?? names[cls] ?? String(cls)`
(part_004 lines 253 and 284). -/
def webLabel (names : List String) (cls : ℤ) : String :=
  match webNameAt names cls with
  | some n => (DISPLAY_LABELS_WEB n).getD n
  | none => toString cls

/-- JS `PRIORITY_CLASSES.includes(names[cls] ?? "")` selecting the lower
threshold (part_004 lines 244 and 275). -/
def webMinConf (names : List String) (cls : ℤ) : ℚ :=
  if (webNameAt names cls).getD "" ∈ PRIORITY_CLASSES then
    MIN_CONFIDENCE_PHONE_BOTTLE
  else MIN_CONFIDENCE

/-- One row of the web end-to-end branch (part_004 lines 241-259): a 6-wide row
`[cx, cy, w, h, score, classIndex]`, skipped when `score < minConf` (so a score
exactly at the threshold is kept).  The source checks only row 0's width, so
rows are read as 6-wide here; no claim exercises a ragged row. -/
def webE2ERow (canvasW canvasH : ℚ) (names : List String) (det : List ℚ) :
    Option Detection :=
  let scaleX := canvasW / 640
  let scaleY := canvasH / 640
  let frameArea := canvasW * canvasH
  let score := det.getD 4 0
  let cls : ℤ := round (det.getD 5 0)
  let minConf := webMinConf names cls
  if score < minConf then none
  else
    let cx := det.getD 0 0
    let cy := det.getD 1 0
    let w := det.getD 2 0
    let h := det.getD 3 0
    let x := (cx - w / 2) * scaleX
    let y := (cy - h / 2) * scaleY
    let wSc := w * scaleX
    let hSc := h * scaleY
    some
      { label := webLabel names cls
        score := score
        x := x, y := y, w := wSc, h := hSc
        proximity := getProximity ((wSc * hSc) / frameArea)
        direction := getDirection (x + wSc / 2) canvasW }

/-- One anchor of the web dense branch (part_004 lines 265-290): arg-max over
`names.length` class rows with JS `prediction[4 + c]?.[i] ?? 0` reads, skipped
when `maxScore < minConf`.  When the gate passes on a well-shaped prediction
the box reads `prediction[0..3][i]` are in range, so default-0 reads are
exact. -/
def webDenseAnchor (canvasW canvasH : ℚ) (names : List String)
    (prediction : List (List ℚ)) (i : ℕ) : Option Detection :=
  let scaleX := canvasW / 640
  let scaleY := canvasH / 640
  let frameArea := canvasW * canvasH
  let m := (List.range names.length).foldl
    (fun acc c =>
      let s := (prediction.getD (4 + c) []).getD i 0
      if s > acc.1 then (s, (c : ℤ)) else acc)
    (0, -1)
  let minConf := webMinConf names m.2
  if m.1 < minConf then none
  else
    let cx := (prediction.getD 0 []).getD i 0
    let cy := (prediction.getD 1 []).getD i 0
    let w := (prediction.getD 2 []).getD i 0
    let h := (prediction.getD 3 []).getD i 0
    let x := (cx - w / 2) * scaleX
    let y := (cy - h / 2) * scaleY
    let wSc := w * scaleX
    let hSc := h * scaleY
    some
      { label := webLabel names m.2
        score := m.1
        x := x, y := y, w := wSc, h := hSc
        proximity := getProximity ((wSc * hSc) / frameArea)
        direction := getDirection (x + wSc / 2) canvasW }

/-- `parseYoloToDetections` (part_004 lines 233-293): the end-to-end branch
fires iff the prediction is 300 rows with row 0 of width 6; otherwise the
dense branch fires iff row 0 has width 8400 (`numAnchors`); otherwise the
result is the empty list.  (JS `prediction[0]?.length` on an empty prediction
is `undefined`, matching neither width.) -/
def parseYoloToDetections (prediction : List (List ℚ)) (canvasW canvasH : ℚ)
    (names : List String) : List Detection :=
  if prediction.length = 300 ∧ (prediction.headD []).length = 6 then
    prediction.filterMap (webE2ERow canvasW canvasH names)
  else
    let numAnchors := (prediction.headD []).length
    if numAnchors = 8400 then
      (List.range 8400).filterMap
        (webDenseAnchor canvasW canvasH names prediction)
    else []

/-! ### Alert scheduling

The web `detect` voice logic (part_004 lines 375-379 and 434-438):

    if (now - lastVoiceTimeRef.current >= VOICE_ALERT_INTERVAL_MS) {
        lastVoiceTimeRef.current = now;
        const msg = buildVoiceAlert(items);
        if (msg) speakAlert(msg);
    }

Note the timestamp is recorded before the message is inspected. -/

/-- The process-wide alert state: `lastVoiceTimeRef` (initially `0`). -/
structure AlertState where
  lastVoiceTime : ℚ
deriving DecidableEq

/-- One scheduling evaluation: the new state and the spoken message, if any. -/
def voiceTick (st : AlertState) (now : ℚ) (items : List Detection) :
    AlertState × Option String :=
  if now - st.lastVoiceTime ≥ VOICE_ALERT_INTERVAL_MS then
    let msg := buildVoiceAlert items 4
    (⟨now⟩, if msg = "" then none else some msg)
  else (st, none)

/-! ### Concrete inputs used by the claims -/

/-- A 4999-element all-zero raw buffer (just below the layout-dispatch
boundary). -/
def zeroBuf4999 : RawOutput := ⟨4999, fun _ => 0⟩

/-- A 5000-element all-zero raw buffer (at the layout-dispatch boundary). -/
def zeroBuf5000 : RawOutput := ⟨5000, fun _ => 0⟩

/-- A 12-element end-to-end buffer of two rows: `[100,200,50,60,0.9,39]`
(class 39 = "bottle") and `[10,20,30,40,0.5,67]` (class 67 = "cell phone"). -/
def twoRowBuf : RawOutput :=
  ⟨12, fun i => [(100 : ℚ), 200, 50, 60, 0.9, 39, 10, 20, 30, 40, 0.5, 67].getD i 0⟩

/-- The detection decoded from row 0 of `twoRowBuf`. -/
def twoRowDet0 (displayLabel : String → String) : Detection :=
  ⟨displayLabel "bottle", 0.9, 75, 170, 50, 60, .far, .left⟩

/-- The detection decoded from row 1 of `twoRowBuf`. -/
def twoRowDet1 (displayLabel : String → String) : Detection :=
  ⟨displayLabel "cell phone", 0.5, -5, 0, 30, 40, .far, .left⟩

/-- A malformed 7-element buffer (count < 5000 but not a multiple of 6) whose
first six values form a complete row with score 1/2 and class 0. -/
def malformedBuf7 : RawOutput :=
  ⟨7, fun i => [(320 : ℚ), 320, 80, 80, 1/2, 0, 0].getD i 0⟩

/-- A dense-anchor buffer (84 × 8400 elements, row-major by feature) encoding a
single "bottle" anchor at spatial position 0: `cx = 320`, `cy = 500`, `w = 80`,
`h = 200` (feature rows 0-3) and class score 1/2 in class row 39 ("bottle");
every other entry is 0. -/
def bottleAnchorBuf : RawOutput :=
  ⟨705600, fun idx =>
    if idx = 0 then 320
    else if idx = 8400 then 500
    else if idx = 2 * 8400 then 80
    else if idx = 3 * 8400 then 200
    else if idx = 43 * 8400 then 1/2
    else 0⟩

/-- The detection the mobile dense branch decodes from `bottleAnchorBuf`. -/
def bottleDet (displayLabel : String → String) : Detection :=
  ⟨displayLabel "bottle", 1/2, 280, 400, 80, 200, .medium, .center⟩

/-- A 6-value row whose score is exactly `MIN_CONFIDENCE` with class 0
("person"). -/
def boundaryRow : List ℚ := [320, 320, 80, 80, 0.08, 0]

/-- An all-zero 6-value row (score 0, below every threshold). -/
def zeroRow : List ℚ := [0, 0, 0, 0, 0, 0]

/-- A 300 × 6 end-to-end prediction whose only scoring row sits exactly at the
default threshold. -/
def boundaryPred : List (List ℚ) := boundaryRow :: List.replicate 299 zeroRow

/-- The detection the web parser keeps from `boundaryRow` on a 640×640
canvas. -/
def boundaryDet : Detection := ⟨"person", 0.08, 280, 280, 80, 80, .far, .center⟩

/-- Three detections with pairwise-disjoint boxes: labels "B", "A", "A" with
scores 5, 9, 5. -/
def tieB : Detection := ⟨"B", 5, 0, 0, 10, 10, .far, .center⟩

/-- See `tieB`. -/
def tieA9 : Detection := ⟨"A", 9, 100, 100, 10, 10, .far, .center⟩

/-- See `tieB`. -/
def tieA5 : Detection := ⟨"A", 5, 200, 200, 10, 10, .far, .center⟩

/-- The suppression input whose labels alternate between two classes with a
score tie across classes. -/
def tieInput : List Detection := [tieB, tieA9, tieA5]

/-- A close, centered detection (alert-worthy under the strict policy). -/
def closeAheadDet : Detection :=
  ⟨"bottle / water bottle", 1/2, 280, 400, 80, 200, .close, .center⟩

/-- A "person" detection; same box as `backpackBox` (IoU = 1). -/
def personBox : Detection := ⟨"person", 0.9, 0, 0, 100, 100, .far, .center⟩

/-- A "backpack / bag" detection; same box as `personBox` (IoU = 1). -/
def backpackBox : Detection := ⟨"backpack / bag", 0.8, 0, 0, 100, 100, .far, .center⟩

/-! ## Lemmas about the stable sort -/

theorem insertSorted_perm (le : Detection → Detection → Prop) [DecidableRel le]
    (a : Detection) (l : List Detection) :
    (insertSorted le a l).Perm (a :: l) := by
  induction l with
  | nil => exact List.Perm.refl _
  | cons b l ih =>
    simp only [insertSorted]
    split
    · exact List.Perm.refl _
    · exact (ih.cons b).trans (List.Perm.swap a b l)

theorem mem_insertSorted {le : Detection → Detection → Prop} [DecidableRel le]
    {a x : Detection} {l : List Detection} :
    x ∈ insertSorted le a l ↔ x = a ∨ x ∈ l := by
  rw [(insertSorted_perm le a l).mem_iff, List.mem_cons]

theorem stableSort_perm (le : Detection → Detection → Prop) [DecidableRel le]
    (l : List Detection) : (stableSort le l).Perm l := by
  induction l with
  | nil => exact List.Perm.refl _
  | cons a l ih => exact (insertSorted_perm le a _).trans (ih.cons a)

theorem pairwise_insertSorted {le : Detection → Detection → Prop}
    [DecidableRel le] (total : ∀ a b, le a b ∨ le b a)
    (letrans : ∀ a b c, le a b → le b c → le a c)
    {a : Detection} {l : List Detection} (h : l.Pairwise le) :
    (insertSorted le a l).Pairwise le := by
  induction l with
  | nil => simp [insertSorted]
  | cons b l ih =>
    obtain ⟨hb, hl⟩ := List.pairwise_cons.mp h
    simp only [insertSorted]
    by_cases hab : le a b
    · rw [if_pos hab]
      refine List.pairwise_cons.mpr ⟨?_, h⟩
      intro x hx
      rcases List.mem_cons.mp hx with rfl | hx
      · exact hab
      · exact letrans a b x hab (hb x hx)
    · rw [if_neg hab]
      refine List.pairwise_cons.mpr ⟨?_, ih hl⟩
      intro x hx
      rcases mem_insertSorted.mp hx with rfl | hx
      · exact (total x b).resolve_left hab
      · exact hb x hx

theorem pairwise_stableSort {le : Detection → Detection → Prop}
    [DecidableRel le] (total : ∀ a b, le a b ∨ le b a)
    (letrans : ∀ a b c, le a b → le b c → le a c) (l : List Detection) :
    (stableSort le l).Pairwise le := by
  induction l with
  | nil => simp [stableSort]
  | cons a l ih => exact pairwise_insertSorted total letrans ih

theorem insertSorted_eq_cons {le : Detection → Detection → Prop}
    [DecidableRel le] {a : Detection} {l : List Detection}
    (h : ∀ x ∈ l, le a x) : insertSorted le a l = a :: l := by
  cases l with
  | nil => rfl
  | cons b l => simp [insertSorted, h b (List.mem_cons_self b l)]

theorem stableSort_eq_of_pairwise {le : Detection → Detection → Prop}
    [DecidableRel le] {l : List Detection} (h : l.Pairwise le) :
    stableSort le l = l := by
  induction l with
  | nil => rfl
  | cons a l ih =>
    obtain ⟨ha, hl⟩ := List.pairwise_cons.mp h
    rw [stableSort, ih hl, insertSorted_eq_cons ha]

theorem filter_insertSorted {le : Detection → Detection → Prop}
    [DecidableRel le] (letrans : ∀ a b c, le a b → le b c → le a c)
    (p : Detection → Bool) {a : Detection} {l : List Detection}
    (h : l.Pairwise le) :
    (insertSorted le a l).filter p =
      if p a then insertSorted le a (l.filter p) else l.filter p := by
  induction l with
  | nil => cases hpa : p a <;> simp [insertSorted, hpa]
  | cons b l ih =>
    obtain ⟨hb, hl⟩ := List.pairwise_cons.mp h
    simp only [insertSorted]
    by_cases hab : le a b
    · rw [if_pos hab]
      have hcons : ∀ x ∈ (b :: l).filter p, le a x := by
        intro x hx
        rcases List.mem_cons.mp (List.mem_filter.mp hx).1 with rfl | hx2
        · exact hab
        · exact letrans a b x hab (hb x hx2)
      cases hpa : p a
      · simp [List.filter_cons, hpa]
      · rw [insertSorted_eq_cons hcons]
        simp [List.filter_cons, hpa]
    · rw [if_neg hab]
      rw [List.filter_cons, List.filter_cons]
      cases hpb : p b
      · simp only [if_false, Bool.false_eq_true]
        exact ih hl
      · simp only [if_true]
        rw [ih hl]
        cases hpa : p a
        · simp
        · simp only [if_true]
          rw [insertSorted]
          rw [if_neg hab]

theorem filter_stableSort {le : Detection → Detection → Prop}
    [DecidableRel le] (total : ∀ a b, le a b ∨ le b a)
    (letrans : ∀ a b c, le a b → le b c → le a c)
    (p : Detection → Bool) (l : List Detection) :
    (stableSort le l).filter p = stableSort le (l.filter p) := by
  induction l with
  | nil => rfl
  | cons a l ih =>
    rw [stableSort,
      filter_insertSorted letrans p (pairwise_stableSort total letrans l), ih,
      List.filter_cons]
    cases hpa : p a
    · simp
    · simp [stableSort]

theorem insertSorted_congr {le le2 : Detection → Detection → Prop}
    [DecidableRel le] [DecidableRel le2] {a : Detection} {l : List Detection}
    (h : ∀ b ∈ l, le a b ↔ le2 a b) :
    insertSorted le a l = insertSorted le2 a l := by
  induction l with
  | nil => rfl
  | cons b l ih =>
    simp only [insertSorted]
    by_cases hab : le a b
    · rw [if_pos hab, if_pos ((h b (List.mem_cons_self b l)).mp hab)]
    · rw [if_neg hab,
        if_neg (fun h2 => hab ((h b (List.mem_cons_self b l)).mpr h2)),
        ih (fun x hx => h x (List.mem_cons_of_mem b hx))]

theorem stableSort_congr {le le2 : Detection → Detection → Prop}
    [DecidableRel le] [DecidableRel le2] {l : List Detection}
    (h : ∀ a ∈ l, ∀ b ∈ l, le a b ↔ le2 a b) :
    stableSort le l = stableSort le2 l := by
  induction l with
  | nil => rfl
  | cons a l ih =>
    rw [stableSort, stableSort,
      ih (fun x hx y hy =>
        h x (List.mem_cons_of_mem a hx) y (List.mem_cons_of_mem a hy))]
    refine insertSorted_congr fun b hb => ?_
    have hbl : b ∈ l := ((stableSort_perm le2 l).mem_iff).mp hb
    exact h a (List.mem_cons_self a l) b (List.mem_cons_of_mem a hbl)

theorem insertSorted_comm {le : Detection → Detection → Prop} [DecidableRel le]
    (total : ∀ a b, le a b ∨ le b a)
    (letrans : ∀ a b c, le a b → le b c → le a c)
    {x y : Detection} (hxy : ¬(le x y ∧ le y x)) (l : List Detection) :
    insertSorted le x (insertSorted le y l) =
      insertSorted le y (insertSorted le x l) := by
  induction l with
  | nil =>
    simp only [insertSorted]
    by_cases h1 : le x y
    · have h2 : ¬ le y x := fun h2 => hxy ⟨h1, h2⟩
      rw [if_pos h1, if_neg h2]
    · have h2 : le y x := (total x y).resolve_left h1
      rw [if_neg h1, if_pos h2]
  | cons b l ih =>
    by_cases hyb : le y b <;> by_cases hxb : le x b
    · -- both insert in front of b
      rw [show insertSorted le y (b :: l) = y :: b :: l by
            simp [insertSorted, hyb],
          show insertSorted le x (b :: l) = x :: b :: l by
            simp [insertSorted, hxb]]
      simp only [insertSorted]
      by_cases h1 : le x y
      · have h2 : ¬ le y x := fun h2 => hxy ⟨h1, h2⟩
        rw [if_pos h1, if_neg h2, if_pos hyb]
      · have h2 : le y x := (total x y).resolve_left h1
        rw [if_neg h1, if_pos h2, if_pos hxb]
    · -- y goes in front of b, x goes past b
      have h1 : ¬ le x y := fun h1 => hxb (letrans x y b h1 hyb)
      rw [show insertSorted le y (b :: l) = y :: b :: l by
            simp [insertSorted, hyb],
          show insertSorted le x (b :: l) = b :: insertSorted le x l by
            simp [insertSorted, hxb]]
      simp only [insertSorted]
      rw [if_neg h1, if_neg hxb, if_pos hyb]
    · -- x goes in front of b, y goes past b
      have h2 : ¬ le y x := fun h2 => hyb (letrans y x b h2 hxb)
      rw [show insertSorted le x (b :: l) = x :: b :: l by
            simp [insertSorted, hxb],
          show insertSorted le y (b :: l) = b :: insertSorted le y l by
            simp [insertSorted, hyb]]
      simp only [insertSorted]
      rw [if_neg h2, if_neg hyb, if_pos hxb]
    · -- both go past b
      rw [show insertSorted le y (b :: l) = b :: insertSorted le y l by
            simp [insertSorted, hyb],
          show insertSorted le x (b :: l) = b :: insertSorted le x l by
            simp [insertSorted, hxb]]
      simp only [insertSorted]
      rw [if_neg hxb, if_neg hyb, ih]

theorem stableSort_insertSorted {le le2 : Detection → Detection → Prop}
    [DecidableRel le] [DecidableRel le2]
    (total : ∀ a b, le a b ∨ le b a)
    (letrans : ∀ a b c, le a b → le b c → le a c)
    (tieh : ∀ a b, le a b → le b a → le2 a b ∧ le2 b a)
    (x : Detection) (l : List Detection) :
    stableSort le (insertSorted le2 x l) =
      insertSorted le x (stableSort le l) := by
  induction l with
  | nil => rfl
  | cons y l ih =>
    simp only [insertSorted]
    by_cases h2 : le2 x y
    · rw [if_pos h2]
      rfl
    · rw [if_neg h2]
      show insertSorted le y (stableSort le (insertSorted le2 x l)) =
        insertSorted le x (insertSorted le y (stableSort le l))
      rw [ih]
      exact insertSorted_comm total letrans
        (fun hboth => h2 (tieh x y hboth.2 hboth.1).1) _

theorem stableSort_stableSort {le le2 : Detection → Detection → Prop}
    [DecidableRel le] [DecidableRel le2]
    (total : ∀ a b, le a b ∨ le b a)
    (letrans : ∀ a b c, le a b → le b c → le a c)
    (tieh : ∀ a b, le a b → le b a → le2 a b ∧ le2 b a)
    (l : List Detection) :
    stableSort le (stableSort le2 l) = stableSort le l := by
  induction l with
  | nil => rfl
  | cons a l ih =>
    show stableSort le (insertSorted le2 a (stableSort le2 l)) = _
    rw [stableSort_insertSorted total letrans tieh a (stableSort le2 l), ih]
    rfl

/-! ## The two comparators are total transitive preorders -/

theorem scoreLe_total : ∀ a b, scoreLe a b ∨ scoreLe b a := fun a b =>
  le_total b.score a.score

theorem scoreLe_trans : ∀ a b c, scoreLe a b → scoreLe b c → scoreLe a c :=
  fun _ _ _ h1 h2 => le_trans h2 h1

theorem classLe_total : ∀ a b, classLe a b ∨ classLe b a := by
  intro a b
  unfold classLe
  by_cases hlab : a.label = b.label
  · rw [if_pos hlab, if_pos hlab.symm]
    exact le_total b.score a.score
  · rw [if_neg hlab, if_neg (Ne.symm hlab)]
    exact lt_or_gt_of_ne hlab

theorem classLe_trans : ∀ a b c, classLe a b → classLe b c → classLe a c := by
  intro a b c
  unfold classLe
  by_cases hab : a.label = b.label <;> by_cases hbc : b.label = c.label
  · rw [if_pos hab, if_pos hbc, if_pos (hab.trans hbc)]
    intro h1 h2
    exact le_trans h2 h1
  · rw [if_pos hab, if_neg hbc, if_neg (hab ▸ hbc)]
    intro _ h2
    exact hab ▸ h2
  · rw [if_neg hab, if_pos hbc, if_neg (fun h => hab (h.trans hbc.symm))]
    intro h1 _
    exact hbc ▸ h1
  · rw [if_neg hab, if_neg hbc]
    intro h1 h2
    have hac : a.label < c.label := lt_trans h1 h2
    rw [if_neg (ne_of_lt hac)]
    exact hac

theorem classLe_tie : ∀ a b, classLe a b → classLe b a →
    scoreLe a b ∧ scoreLe b a := by
  intro a b
  unfold classLe scoreLe
  by_cases hlab : a.label = b.label
  · rw [if_pos hlab, if_pos hlab.symm]
    exact fun h1 h2 => ⟨h1, h2⟩
  · rw [if_neg hlab, if_neg (Ne.symm hlab)]
    intro h1 h2
    exact absurd h1 (lt_asymm h2)

/-! ## Lemmas about the greedy suppression pass -/

theorem boxIoU_comm (a b : Detection) : boxIoU a b = boxIoU b a := by
  simp only [boxIoU]
  rw [max_comm a.x b.x, max_comm a.y b.y, min_comm (a.x + a.w) (b.x + b.w),
    min_comm (a.y + a.h) (b.y + b.h), add_comm (a.w * a.h) (b.w * b.h)]

theorem mobileSup_symm {d k : Detection} (h : mobileSup d k) : mobileSup k d := by
  refine ⟨h.1.symm, ?_⟩
  rw [boxIoU_comm k d]
  exact h.2

theorem webSup_symm {d k : Detection} (h : webSup d k) : webSup k d := by
  unfold webSup
  rw [boxIoU_comm k d]
  exact h

theorem greedyKeep_mem_left {sup : Detection → Detection → Prop}
    [∀ d k, Decidable (sup d k)] {k : Detection} :
    ∀ {l kept : List Detection}, k ∈ kept → k ∈ greedyKeep sup kept l := by
  intro l
  induction l with
  | nil => intro kept h; simpa [greedyKeep] using h
  | cons d rest ih =>
    intro kept h
    simp only [greedyKeep]
    split
    · exact ih h
    · exact ih (List.mem_append_left [d] h)

theorem greedyKeep_eq_append {sup : Detection → Detection → Prop}
    [∀ d k, Decidable (sup d k)] :
    ∀ (l kept : List Detection),
      ∃ s, greedyKeep sup kept l = kept ++ s ∧ s.Sublist l := by
  intro l
  induction l with
  | nil => exact fun kept => ⟨[], by simp [greedyKeep]⟩
  | cons d rest ih =>
    intro kept
    simp only [greedyKeep]
    split
    · obtain ⟨s, hs, hsub⟩ := ih kept
      exact ⟨s, hs, hsub.cons d⟩
    · obtain ⟨s, hs, hsub⟩ := ih (kept ++ [d])
      exact ⟨d :: s, by simpa using hs, hsub.cons₂ d⟩

theorem greedyKeep_subset {sup : Detection → Detection → Prop}
    [∀ d k, Decidable (sup d k)] {x : Detection} {l kept : List Detection}
    (h : x ∈ greedyKeep sup kept l) : x ∈ kept ∨ x ∈ l := by
  obtain ⟨s, hs, hsub⟩ := @greedyKeep_eq_append sup _ l kept
  rw [hs] at h
  exact (List.mem_append.mp h).imp id (fun hx => hsub.subset hx)

theorem greedyKeep_pairwise {sup : Detection → Detection → Prop}
    [∀ d k, Decidable (sup d k)] :
    ∀ {l kept : List Detection},
      kept.Pairwise (fun a b => ¬ sup b a) →
      (greedyKeep sup kept l).Pairwise (fun a b => ¬ sup b a) := by
  intro l
  induction l with
  | nil => intro kept h; simpa [greedyKeep] using h
  | cons d rest ih =>
    intro kept h
    simp only [greedyKeep]
    split
    · exact ih h
    · rename_i hno
      push_neg at hno
      refine ih (List.pairwise_append.mpr ⟨h, List.pairwise_singleton _ _, ?_⟩)
      intro a ha b hb
      rw [List.mem_singleton] at hb
      subst hb
      exact hno a ha

theorem greedyKeep_of_compat {sup : Detection → Detection → Prop}
    [∀ d k, Decidable (sup d k)] :
    ∀ (l kept : List Detection),
      (∀ x ∈ l, ∀ k ∈ kept, ¬ sup x k) →
      l.Pairwise (fun a b => ¬ sup b a) →
      greedyKeep sup kept l = kept ++ l := by
  intro l
  induction l with
  | nil => intro kept _ _; simp [greedyKeep]
  | cons d rest ih =>
    intro kept hcross hp
    obtain ⟨hd, hrest⟩ := List.pairwise_cons.mp hp
    simp only [greedyKeep]
    rw [if_neg]
    · rw [ih (kept ++ [d]) ?_ hrest]
      · simp
      · intro x hx k hk
        rcases List.mem_append.mp hk with hk | hk
        · exact hcross x (List.mem_cons_of_mem d hx) k hk
        · rw [List.mem_singleton] at hk
          subst hk
          exact hd x hx
    · rintro ⟨k, hk, hsup⟩
      exact hcross d (List.mem_cons_self d rest) k hk hsup

theorem greedyKeep_mem_or_sup {sup : Detection → Detection → Prop}
    [∀ d k, Decidable (sup d k)] :
    ∀ (l kept : List Detection) (d : Detection), d ∈ l →
      d ∈ greedyKeep sup kept l ∨
        ∃ e ∈ greedyKeep sup kept l, sup d e := by
  intro l
  induction l with
  | nil => intro kept d h; cases h
  | cons x rest ih =>
    intro kept d hd
    simp only [greedyKeep]
    rcases List.mem_cons.mp hd with rfl | hd
    · split
      · rename_i hyes
        obtain ⟨k, hk, hsup⟩ := hyes
        exact Or.inr ⟨k, greedyKeep_mem_left hk, hsup⟩
      · exact Or.inl (greedyKeep_mem_left
          (List.mem_append_right kept (List.mem_singleton.mpr rfl)))
    · split
      · exact ih kept d hd
      · exact ih (kept ++ [x]) d hd

theorem greedyKeep_filter {sup1 sup2 : Detection → Detection → Prop}
    [∀ d k, Decidable (sup1 d k)] [∀ d k, Decidable (sup2 d k)]
    (p : Detection → Bool)
    (H : ∀ x k, p x = true → (sup1 x k ↔ (p k = true ∧ sup2 x k))) :
    ∀ (l kept : List Detection),
      (greedyKeep sup1 kept l).filter p =
        greedyKeep sup2 (kept.filter p) (l.filter p) := by
  intro l
  induction l with
  | nil => intro kept; simp [greedyKeep]
  | cons x rest ih =>
    intro kept
    rw [List.filter_cons]
    cases hpx : p x
    · simp only [Bool.false_eq_true, if_false]
      simp only [greedyKeep]
      split
      · exact ih kept
      · rw [ih (kept ++ [x]), List.filter_append, List.filter_cons, hpx]
        simp
    · simp only [if_true]
      have hiff : (∃ k ∈ kept, sup1 x k) ↔ ∃ k ∈ kept.filter p, sup2 x k := by
        constructor
        · rintro ⟨k, hk, hs⟩
          obtain ⟨hpk, hs2⟩ := (H x k hpx).mp hs
          exact ⟨k, List.mem_filter.mpr ⟨hk, hpk⟩, hs2⟩
        · rintro ⟨k, hk, hs⟩
          obtain ⟨hk1, hpk⟩ := List.mem_filter.mp hk
          exact ⟨k, hk1, (H x k hpx).mpr ⟨hpk, hs⟩⟩
      simp only [greedyKeep]
      by_cases hex : ∃ k ∈ kept, sup1 x k
      · rw [if_pos hex, if_pos (hiff.mp hex)]
        exact ih kept
      · rw [if_neg hex, if_neg (fun h => hex (hiff.mpr h))]
        rw [ih (kept ++ [x]), List.filter_append, List.filter_cons, hpx]
        simp

/-! ## Per-label characterization of both suppression implementations -/

theorem firstLabels_nodup : ∀ items : List Detection, (firstLabels items).Nodup := by
  intro items
  induction items with
  | nil => simp [firstLabels]
  | cons d rest ih =>
    simp only [firstLabels]
    refine List.nodup_cons.mpr ⟨?_, ih.filter _⟩
    intro hmem
    have h := (List.mem_filter.mp hmem).2
    simp at h

theorem mem_firstLabels {s : String} : ∀ {items : List Detection},
    s ∈ firstLabels items ↔ ∃ d ∈ items, d.label = s := by
  intro items
  induction items with
  | nil => simp [firstLabels]
  | cons d rest ih =>
    simp only [firstLabels]
    constructor
    · intro hmem
      rcases List.mem_cons.mp hmem with rfl | hmem2
      · exact ⟨d, List.mem_cons_self d rest, rfl⟩
      · obtain ⟨e, he, hl⟩ := ih.mp (List.mem_filter.mp hmem2).1
        exact ⟨e, List.mem_cons_of_mem d he, hl⟩
    · rintro ⟨e, he, hl⟩
      by_cases hs : s = d.label
      · rw [hs]
        exact List.mem_cons_self _ _
      · rcases List.mem_cons.mp he with rfl | he2
        · exact absurd hl.symm hs
        · exact List.mem_cons_of_mem _ (List.mem_filter.mpr
            ⟨ih.mpr ⟨e, he2, hl⟩, by simp [hs]⟩)

theorem applyNMSMobile_subset {x : Detection} {items : List Detection}
    (h : x ∈ applyNMSMobile items) : x ∈ items := by
  rw [applyNMSMobile] at h
  split at h
  · exact h
  · have h2 := (stableSort_perm scoreLe _).mem_iff.mp h
    rcases greedyKeep_subset h2 with h3 | h3
    · cases h3
    · exact (stableSort_perm classLe items).mem_iff.mp h3

theorem applyNMSWeb_subset {x : Detection} {items : List Detection}
    (h : x ∈ applyNMSWeb items) : x ∈ items := by
  rw [applyNMSWeb] at h
  split at h
  · exact h
  · have h2 := (stableSort_perm scoreLe _).mem_iff.mp h
    rw [List.mem_flatten] at h2
    obtain ⟨grp, hgrp, hx⟩ := h2
    rw [List.mem_map] at hgrp
    obtain ⟨l, _, rfl⟩ := hgrp
    rcases greedyKeep_subset hx with h3 | h3
    · cases h3
    · have h4 := (stableSort_perm scoreLe _).mem_iff.mp h3
      exact (List.mem_filter.mp h4).1

theorem label_of_mem_group {x : Detection} {items : List Detection} {l : String}
    (h : x ∈ greedyKeep webSup []
      (stableSort scoreLe (items.filter (fun d => decide (d.label = l))))) :
    x.label = l := by
  rcases greedyKeep_subset h with h2 | h2
  · cases h2
  · have h3 := (stableSort_perm scoreLe _).mem_iff.mp h2
    have h4 := (List.mem_filter.mp h3).2
    simpa using h4

theorem flatten_ite {G : String → List Detection} {s : String} :
    ∀ ls : List String, ls.Nodup →
      (ls.map (fun l => if l = s then G l else [])).flatten =
        if s ∈ ls then G s else [] := by
  intro ls
  induction ls with
  | nil => simp
  | cons l ls ih =>
    intro hnd
    obtain ⟨hl, hnd2⟩ := List.nodup_cons.mp hnd
    simp only [List.map_cons, List.flatten_cons, ih hnd2]
    by_cases hls : l = s
    · subst hls
      rw [if_pos rfl, if_neg hl, if_pos (List.mem_cons_self l ls)]
      simp
    · rw [if_neg hls]
      by_cases hmem : s ∈ ls
      · rw [if_pos hmem, if_pos (List.mem_cons_of_mem l hmem)]
        simp
      · rw [if_neg hmem, if_neg ?_]
        · simp
        · intro hc
          rcases List.mem_cons.mp hc with rfl | hc2
          · exact hls rfl
          · exact hmem hc2

theorem applyNMSWeb_filter_char (s : String) (items : List Detection)
    (h2 : 2 ≤ items.length) :
    (applyNMSWeb items).filter (fun d => decide (d.label = s)) =
      stableSort scoreLe (greedyKeep webSup []
        (stableSort scoreLe (items.filter (fun d => decide (d.label = s))))) := by
  have hlen : ¬ items.length ≤ 1 := by omega
  simp only [applyNMSWeb, hlen, if_false]
  rw [filter_stableSort scoreLe_total scoreLe_trans, List.filter_flatten,
    List.map_map]
  have hpt : ∀ l : String,
      ((fun l => greedyKeep webSup []
          (stableSort scoreLe (items.filter (fun d => decide (d.label = l))))) l).filter
        (fun d => decide (d.label = s)) =
      if l = s then greedyKeep webSup []
          (stableSort scoreLe (items.filter (fun d => decide (d.label = l)))) else [] := by
    intro l
    by_cases hls : l = s
    · subst hls
      rw [if_pos rfl]
      refine List.filter_eq_self.mpr fun x hx => ?_
      simp [label_of_mem_group hx]
    · rw [if_neg hls]
      refine List.filter_eq_nil_iff.mpr fun x hx => ?_
      simp [label_of_mem_group hx, hls]
  refine congrArg (stableSort scoreLe) ?_
  calc (List.map ((fun x => List.filter (fun d => decide (d.label = s)) x) ∘ fun l =>
          greedyKeep webSup []
            (stableSort scoreLe (items.filter (fun d => decide (d.label = l)))))
          (firstLabels items)).flatten
      = (List.map (fun l => if l = s then greedyKeep webSup []
            (stableSort scoreLe (items.filter (fun d => decide (d.label = l)))) else [])
          (firstLabels items)).flatten := by
        refine congrArg List.flatten (List.map_congr_left fun l _ => hpt l)
    _ = if s ∈ firstLabels items then greedyKeep webSup []
          (stableSort scoreLe (items.filter (fun d => decide (d.label = s)))) else [] := by
        exact flatten_ite (firstLabels items) (firstLabels_nodup items)
    _ = greedyKeep webSup []
          (stableSort scoreLe (items.filter (fun d => decide (d.label = s)))) := by
        by_cases hmem : s ∈ firstLabels items
        · rw [if_pos hmem]
        · rw [if_neg hmem]
          have hnil : items.filter (fun d => decide (d.label = s)) = [] := by
            refine List.filter_eq_nil_iff.mpr fun d hd => ?_
            intro hc
            exact hmem (mem_firstLabels.mpr ⟨d, hd, by simpa using hc⟩)
          rw [hnil]
          rfl

theorem mobileSup_filter_iff (s : String) :
    ∀ x k : Detection, (fun d => decide (d.label = s)) x = true →
      (mobileSup x k ↔
        ((fun d => decide (d.label = s)) k = true ∧ webSup x k)) := by
  intro x k hx
  simp only [decide_eq_true_eq] at hx ⊢
  unfold mobileSup webSup
  rw [hx]

theorem applyNMSMobile_filter_char (s : String) (items : List Detection)
    (h2 : 2 ≤ items.length) :
    (applyNMSMobile items).filter (fun d => decide (d.label = s)) =
      stableSort scoreLe (greedyKeep webSup []
        (stableSort scoreLe (items.filter (fun d => decide (d.label = s))))) := by
  have hlen : ¬ items.length ≤ 1 := by omega
  simp only [applyNMSMobile, hlen, if_false]
  rw [filter_stableSort scoreLe_total scoreLe_trans,
    greedyKeep_filter _ (mobileSup_filter_iff s) (stableSort classLe items) [],
    filter_stableSort classLe_total classLe_trans]
  show stableSort scoreLe (greedyKeep webSup []
      (stableSort classLe (items.filter (fun d => decide (d.label = s))))) = _
  refine congrArg (stableSort scoreLe) (congrArg (greedyKeep webSup []) ?_)
  refine stableSort_congr fun a ha b hb => ?_
  have hal : a.label = s := by simpa using (List.mem_filter.mp ha).2
  have hbl : b.label = s := by simpa using (List.mem_filter.mp hb).2
  unfold classLe scoreLe
  rw [if_pos (hal.trans hbl.symm)]

/-! ## Claim theorems about suppression -/

/-- Counting a detection is unaffected by filtering to its own label. -/
theorem count_filter_label (x : Detection) (l : List Detection) :
    List.count x (l.filter (fun d => decide (d.label = x.label))) =
      List.count x l :=
  List.count_filter (by simp)

/-- C10: for every finite detection list, the mobile platform's suppression
(one pass over all candidates sorted by class then descending score,
suppressing against already-kept same-class items) and the web platform's
suppression (partition by label, greedy per-partition suppression in
descending score order, merge, re-sort by descending score) keep exactly the
same set of surviving detections (the outputs are permutations of each
other). -/
theorem C10_nms_equivalence (items : List Detection) :
    (applyNMSMobile items).Perm (applyNMSWeb items) := by
  by_cases h1 : items.length ≤ 1
  · rw [applyNMSMobile, applyNMSWeb, if_pos h1, if_pos h1]
  · have h2 : 2 ≤ items.length := by omega
    rw [List.perm_iff_count]
    intro x
    have hm := applyNMSMobile_filter_char x.label items h2
    have hw := applyNMSWeb_filter_char x.label items h2
    calc List.count x (applyNMSMobile items)
        = List.count x ((applyNMSMobile items).filter
            (fun d => decide (d.label = x.label))) :=
          (count_filter_label x _).symm
      _ = List.count x ((applyNMSWeb items).filter
            (fun d => decide (d.label = x.label))) := by rw [hm, hw]
      _ = List.count x (applyNMSWeb items) := count_filter_label x _

set_option maxRecDepth 8000 in
/-- C5 counterexample: on a concrete three-element input (two labels, a score
tie across labels, disjoint boxes), running the web `applyNMS` a second time
on its own output reorders it, so the claim "running suppression a second
time returns the output unchanged" is false as stated. -/
theorem C5_idempotence_cex :
    applyNMSWeb (applyNMSWeb tieInput) ≠ applyNMSWeb tieInput :=
  of_decide_eq_true (by with_unfolding_all rfl)

/-- C5 (amended): a second suppression pass removes no survivor.  The mobile
`applyNMS` is fully idempotent (its output is returned unchanged, order
included); the web `applyNMS` returns the same multiset of detections but may
reorder detections of equal score belonging to different labels. -/
theorem C5_idempotence :
    (∀ items : List Detection,
      applyNMSMobile (applyNMSMobile items) = applyNMSMobile items) ∧
    (∀ items : List Detection,
      (applyNMSWeb (applyNMSWeb items)).Perm (applyNMSWeb items)) := by
  constructor
  · intro items
    by_cases h1 : items.length ≤ 1
    · have e : applyNMSMobile items = items := by
        rw [applyNMSMobile, if_pos h1]
      rw [e]
      exact e
    · have hMl : applyNMSMobile items =
          stableSort scoreLe (greedyKeep mobileSup [] (stableSort classLe items)) := by
        rw [applyNMSMobile, if_neg h1]
      by_cases hO : (applyNMSMobile items).length ≤ 1
      · conv_lhs => rw [applyNMSMobile]
        rw [if_pos hO]
      · set K := greedyKeep mobileSup [] (stableSort classLe items) with hK
        have hKs : K.Pairwise classLe := by
          obtain ⟨s2, hs2, hsub⟩ :=
            @greedyKeep_eq_append mobileSup _ (stableSort classLe items) []
          have hKe : K = s2 := by rw [hK, hs2]; simp
          rw [hKe]
          exact List.Pairwise.sublist hsub
            (pairwise_stableSort classLe_total classLe_trans items)
        have hKcompat : K.Pairwise
            (fun a b => ¬ mobileSup b a ∧ ¬ mobileSup a b) := by
          have h0 : K.Pairwise (fun a b => ¬ mobileSup b a) :=
            greedyKeep_pairwise List.Pairwise.nil
          exact h0.imp (fun h => ⟨h, fun hs => h (mobileSup_symm hs)⟩)
        have hsym : ∀ {a b : Detection},
            (¬ mobileSup b a ∧ ¬ mobileSup a b) →
            (¬ mobileSup a b ∧ ¬ mobileSup b a) := fun h => ⟨h.2, h.1⟩
        have hOperm : (stableSort classLe (applyNMSMobile items)).Perm K := by
          rw [hMl]
          exact (stableSort_perm classLe _).trans (stableSort_perm scoreLe K)
        have hOcompat : (stableSort classLe (applyNMSMobile items)).Pairwise
            (fun a b => ¬ mobileSup b a ∧ ¬ mobileSup a b) :=
          (List.Perm.pairwise_iff hsym hOperm).mpr hKcompat
        have hgreedy : greedyKeep mobileSup []
              (stableSort classLe (applyNMSMobile items)) =
            stableSort classLe (applyNMSMobile items) := by
          have h3 := @greedyKeep_of_compat mobileSup _
            (stableSort classLe (applyNMSMobile items)) []
            (by intro x hx k hk; cases hk)
            (hOcompat.imp (fun h => h.1))
          simpa using h3
        conv_lhs => rw [applyNMSMobile]
        rw [if_neg hO, hgreedy, hMl,
          stableSort_stableSort classLe_total classLe_trans classLe_tie K,
          stableSort_eq_of_pairwise hKs]
  · intro items
    by_cases h1 : items.length ≤ 1
    · have e : applyNMSWeb items = items := by rw [applyNMSWeb, if_pos h1]
      rw [e, e]
    · have h2 : 2 ≤ items.length := by omega
      by_cases hO : (applyNMSWeb items).length ≤ 1
      · conv_lhs => rw [applyNMSWeb]
        rw [if_pos hO]
      · have hO2 : 2 ≤ (applyNMSWeb items).length := by omega
        rw [List.perm_iff_count]
        intro x
        have hchar1 := applyNMSWeb_filter_char x.label items h2
        have hchar2 := applyNMSWeb_filter_char x.label (applyNMSWeb items) hO2
        set G := greedyKeep webSup []
          (stableSort scoreLe
            (items.filter (fun d => decide (d.label = x.label)))) with hG
        have hGcompat : G.Pairwise
            (fun a b => ¬ webSup b a ∧ ¬ webSup a b) := by
          have h0 : G.Pairwise (fun a b => ¬ webSup b a) :=
            greedyKeep_pairwise List.Pairwise.nil
          exact h0.imp (fun h => ⟨h, fun hs => h (webSup_symm hs)⟩)
        have hsym : ∀ {a b : Detection},
            (¬ webSup b a ∧ ¬ webSup a b) → (¬ webSup a b ∧ ¬ webSup b a) :=
          fun h => ⟨h.2, h.1⟩
        have hfperm : ((applyNMSWeb items).filter
            (fun d => decide (d.label = x.label))).Perm G := by
          rw [hchar1]
          exact stableSort_perm scoreLe G
        have hscompat : (stableSort scoreLe ((applyNMSWeb items).filter
              (fun d => decide (d.label = x.label)))).Pairwise
            (fun a b => ¬ webSup b a ∧ ¬ webSup a b) :=
          (List.Perm.pairwise_iff hsym
            ((stableSort_perm scoreLe _).trans hfperm)).mpr hGcompat
        have hgreedy : greedyKeep webSup []
              (stableSort scoreLe ((applyNMSWeb items).filter
                (fun d => decide (d.label = x.label)))) =
            stableSort scoreLe ((applyNMSWeb items).filter
              (fun d => decide (d.label = x.label))) := by
          have h3 := @greedyKeep_of_compat webSup _
            (stableSort scoreLe ((applyNMSWeb items).filter
              (fun d => decide (d.label = x.label)))) []
            (by intro y hy k hk; cases hk)
            (hscompat.imp (fun h => h.1))
          simpa using h3
        calc List.count x (applyNMSWeb (applyNMSWeb items))
            = List.count x ((applyNMSWeb (applyNMSWeb items)).filter
                (fun d => decide (d.label = x.label))) :=
              (count_filter_label x _).symm
          _ = List.count x (stableSort scoreLe (greedyKeep webSup []
                (stableSort scoreLe ((applyNMSWeb items).filter
                  (fun d => decide (d.label = x.label)))))) := by rw [hchar2]
          _ = List.count x (stableSort scoreLe (stableSort scoreLe
                ((applyNMSWeb items).filter
                  (fun d => decide (d.label = x.label))))) := by rw [hgreedy]
          _ = List.count x ((applyNMSWeb items).filter
                (fun d => decide (d.label = x.label))) :=
              ((stableSort_perm scoreLe _).trans
                (stableSort_perm scoreLe _)).count_eq x
          _ = List.count x (applyNMSWeb items) := count_filter_label x _

/-- C4: neither suppression pass ever lets candidates of different classes
suppress one another: a candidate that is dropped always has a surviving
same-label suppressor with IoU above the threshold, and in particular two
candidates with different class labels — even with identical boxes (IoU = 1) —
both survive. -/
theorem C4_cross_class_independence :
    (∀ (items : List Detection) (d : Detection), d ∈ items →
        d ∉ applyNMSMobile items →
        ∃ e, e ∈ applyNMSMobile items ∧ e.label = d.label ∧ e ≠ d ∧
          NMS_IOU_THRESHOLD < boxIoU d e) ∧
    (∀ (items : List Detection) (d : Detection), d ∈ items →
        d ∉ applyNMSWeb items →
        ∃ e, e ∈ applyNMSWeb items ∧ e.label = d.label ∧ e ≠ d ∧
          NMS_IOU_THRESHOLD < boxIoU d e) ∧
    (∀ a b : Detection, a.label ≠ b.label →
        a ∈ applyNMSMobile [a, b] ∧ b ∈ applyNMSMobile [a, b] ∧
        a ∈ applyNMSWeb [a, b] ∧ b ∈ applyNMSWeb [a, b]) := by
  have hmob : ∀ (items : List Detection) (d : Detection), d ∈ items →
      d ∉ applyNMSMobile items →
      ∃ e, e ∈ applyNMSMobile items ∧ e.label = d.label ∧ e ≠ d ∧
        NMS_IOU_THRESHOLD < boxIoU d e := by
    intro items d hd hnot
    by_cases h1 : items.length ≤ 1
    · refine absurd ?_ hnot
      rw [applyNMSMobile, if_pos h1]
      exact hd
    · have hMl : applyNMSMobile items =
          stableSort scoreLe (greedyKeep mobileSup [] (stableSort classLe items)) := by
        rw [applyNMSMobile, if_neg h1]
      have hd2 : d ∈ stableSort classLe items :=
        (stableSort_perm classLe items).mem_iff.mpr hd
      rcases @greedyKeep_mem_or_sup mobileSup _ (stableSort classLe items) []
          d hd2 with hin | ⟨e, he, hsup⟩
      · refine absurd ?_ hnot
        rw [hMl]
        exact (stableSort_perm scoreLe _).mem_iff.mpr hin
      · have heM : e ∈ applyNMSMobile items := by
          rw [hMl]
          exact (stableSort_perm scoreLe _).mem_iff.mpr he
        refine ⟨e, heM, hsup.1, ?_, hsup.2⟩
        rintro rfl
        exact hnot heM
  have hweb : ∀ (items : List Detection) (d : Detection), d ∈ items →
      d ∉ applyNMSWeb items →
      ∃ e, e ∈ applyNMSWeb items ∧ e.label = d.label ∧ e ≠ d ∧
        NMS_IOU_THRESHOLD < boxIoU d e := by
    intro items d hd hnot
    by_cases h1 : items.length ≤ 1
    · refine absurd ?_ hnot
      rw [applyNMSWeb, if_pos h1]
      exact hd
    · have hWd : applyNMSWeb items =
          stableSort scoreLe (((firstLabels items).map (fun l =>
            greedyKeep webSup [] (stableSort scoreLe
              (items.filter (fun e => decide (e.label = l)))))).flatten) := by
        rw [applyNMSWeb, if_neg h1]
      have hlab : d.label ∈ firstLabels items :=
        mem_firstLabels.mpr ⟨d, hd, rfl⟩
      have hd2 : d ∈ stableSort scoreLe
          (items.filter (fun e => decide (e.label = d.label))) :=
        (stableSort_perm scoreLe _).mem_iff.mpr
          (List.mem_filter.mpr ⟨hd, by simp⟩)
      rcases @greedyKeep_mem_or_sup webSup _
          (stableSort scoreLe (items.filter (fun e => decide (e.label = d.label))))
          [] d hd2 with hin | ⟨e, he, hsup⟩
      · refine absurd ?_ hnot
        rw [hWd]
        refine (stableSort_perm scoreLe _).mem_iff.mpr ?_
        rw [List.mem_flatten]
        exact ⟨_, List.mem_map.mpr ⟨d.label, hlab, rfl⟩, hin⟩
      · have heW : e ∈ applyNMSWeb items := by
          rw [hWd]
          refine (stableSort_perm scoreLe _).mem_iff.mpr ?_
          rw [List.mem_flatten]
          exact ⟨_, List.mem_map.mpr ⟨d.label, hlab, rfl⟩, he⟩
        refine ⟨e, heW, label_of_mem_group he, ?_, hsup⟩
        rintro rfl
        exact hnot heW
  refine ⟨hmob, hweb, ?_⟩
  intro a b hne
  have hamem : a ∈ [a, b] := by simp
  have hbmem : b ∈ [a, b] := by simp
  have hma : a ∈ applyNMSMobile [a, b] := by
    by_contra hnot
    obtain ⟨e, heM, hlab, hne2, _⟩ := hmob [a, b] a hamem hnot
    have hei := applyNMSMobile_subset heM
    simp only [List.mem_cons, List.mem_singleton, List.not_mem_nil,
      or_false] at hei
    rcases hei with rfl | rfl
    · exact hne2 rfl
    · exact hne hlab.symm
  have hmb : b ∈ applyNMSMobile [a, b] := by
    by_contra hnot
    obtain ⟨e, heM, hlab, hne2, _⟩ := hmob [a, b] b hbmem hnot
    have hei := applyNMSMobile_subset heM
    simp only [List.mem_cons, List.mem_singleton, List.not_mem_nil,
      or_false] at hei
    rcases hei with rfl | rfl
    · exact hne hlab
    · exact hne2 rfl
  have hwa : a ∈ applyNMSWeb [a, b] := by
    by_contra hnot
    obtain ⟨e, heW, hlab, hne2, _⟩ := hweb [a, b] a hamem hnot
    have hei := applyNMSWeb_subset heW
    simp only [List.mem_cons, List.mem_singleton, List.not_mem_nil,
      or_false] at hei
    rcases hei with rfl | rfl
    · exact hne2 rfl
    · exact hne hlab.symm
  have hwb : b ∈ applyNMSWeb [a, b] := by
    by_contra hnot
    obtain ⟨e, heW, hlab, hne2, _⟩ := hweb [a, b] b hbmem hnot
    have hei := applyNMSWeb_subset heW
    simp only [List.mem_cons, List.mem_singleton, List.not_mem_nil,
      or_false] at hei
    rcases hei with rfl | rfl
    · exact hne hlab
    · exact hne2 rfl
  exact ⟨hma, hmb, hwa, hwb⟩

/-- C4 witness: a "person" and a "backpack / bag" detection with the identical
box (IoU = 1) both survive both suppression passes. -/
theorem C4_cross_class_independence_witness :
    personBox ∈ applyNMSMobile [personBox, backpackBox] ∧
    backpackBox ∈ applyNMSMobile [personBox, backpackBox] ∧
    personBox ∈ applyNMSWeb [personBox, backpackBox] ∧
    backpackBox ∈ applyNMSWeb [personBox, backpackBox] :=
  C4_cross_class_independence.2.2 personBox backpackBox (by
    simp only [personBox, backpackBox]
    decide)

/-! ## Decoder lemmas -/

theorem minConfFor_pos (c : String) : 0 < minConfFor c := by
  unfold minConfFor
  split <;> norm_num [MIN_CONFIDENCE, MIN_CONFIDENCE_PHONE_BOTTLE]

theorem rowCandidate_none_of_nonpos {dl : String → String}
    {buf : RawOutput} {i : ℕ} (h : buf.val (6 * i + 4) ≤ 0) :
    rowCandidate dl buf i = none := by
  unfold rowCandidate
  simp only [RawOutput.read?]
  by_cases h4 : 6 * i + 4 < buf.count
  · rw [if_pos h4]
    dsimp only
    rw [if_neg]
    exact fun hgt => absurd ((minConfFor_pos _).trans hgt) (not_lt.mpr h)
  · rw [if_neg h4]

theorem rowCandidate_none_of_oob {dl : String → String}
    {buf : RawOutput} {i : ℕ} (h : buf.count ≤ 6 * i + 4) :
    rowCandidate dl buf i = none := by
  unfold rowCandidate
  simp only [RawOutput.read?]
  rw [if_neg (by omega)]

theorem parseEndToEnd_zeroval {dl : String → String} {buf : RawOutput}
    (h : ∀ j, buf.val j = 0) : parseEndToEnd dl buf = [] := by
  unfold parseEndToEnd
  exact List.filterMap_eq_nil_iff.mpr fun i _ =>
    rowCandidate_none_of_nonpos (le_of_eq (h _))

theorem foldl_const {α β : Type} {f : α → β → α} {a : α} :
    ∀ l : List β, (∀ c ∈ l, f a c = a) → l.foldl f a = a := by
  intro l
  induction l with
  | nil => intro _; rfl
  | cons c l ih =>
    intro h
    rw [List.foldl_cons, h c (List.mem_cons_self c l)]
    exact ih fun c2 hc2 => h c2 (List.mem_cons_of_mem c hc2)

theorem denseArgMax_eq_init {buf : RawOutput} {i : ℕ}
    (h : ∀ c ∈ List.range 80, buf.read? ((4 + c) * 8400 + i) = none ∨
      buf.read? ((4 + c) * 8400 + i) = some 0) :
    denseArgMax buf i = (0, -1) := by
  unfold denseArgMax
  refine foldl_const _ fun c hc => ?_
  rcases h c hc with h2 | h2 <;> rw [h2]
  dsimp only
  norm_num

theorem anchorCandidate_none_of_argMax_init {dl : String → String}
    {buf : RawOutput} {i : ℕ} (h : denseArgMax buf i = (0, -1)) :
    anchorCandidate dl buf i = none := by
  unfold anchorCandidate
  rw [h]
  rw [if_neg]
  exact fun hgt => absurd (minConfFor_pos _) (lt_asymm hgt)

theorem parseDense_eq_nil_of_short {dl : String → String} {buf : RawOutput}
    (h : buf.count ≤ 33600) : parseDense dl buf = [] := by
  unfold parseDense
  refine List.filterMap_eq_nil_iff.mpr fun i _ => ?_
  refine anchorCandidate_none_of_argMax_init ?_
  refine denseArgMax_eq_init fun c _ => ?_
  left
  unfold RawOutput.read?
  rw [if_neg (by omega)]

theorem filterMap_range_single {f : ℕ → Option Detection} {v : Detection}
    {n : ℕ} (hn : 0 < n) (h0 : f 0 = some v)
    (h : ∀ i, 0 < i → i < n → f i = none) :
    (List.range n).filterMap f = [v] := by
  obtain ⟨m, rfl⟩ : ∃ m, n = m + 1 := ⟨n - 1, by omega⟩
  rw [List.range_eq_range',
    show List.range' 0 (m + 1) = 0 :: List.range' 1 m from rfl,
    List.filterMap_cons, h0]
  have hnil : (List.range' 1 m).filterMap f = [] := by
    refine List.filterMap_eq_nil_iff.mpr fun i hi => ?_
    rw [List.mem_range'] at hi
    obtain ⟨k, hk, rfl⟩ := hi
    exact h _ (by omega) (by omega)
  rw [hnil]

/-! ## Decoder claim theorems -/

/-- C1: the mobile decoder selects the parsing layout solely by total element
count — a count strictly below 5000 takes the end-to-end branch, every other
count the dense-anchor branch; for a multiple-of-6 count the end-to-end branch
reads exactly count/6 rows of six contiguous values `[cx, cy, w, h, score,
classIndex]` (demonstrated on the concrete two-row buffer), and decoding is
defined and yields a definite value at the boundary sizes 4999 and 5000. -/
theorem C1_layout_dispatch :
    (∀ (dl : String → String) (buf : RawOutput), buf.count < 5000 →
        parseMobile dl buf = parseEndToEnd dl buf) ∧
    (∀ (dl : String → String) (buf : RawOutput), 5000 ≤ buf.count →
        parseMobile dl buf = parseDense dl buf) ∧
    (∀ (dl : String → String) (buf : RawOutput), 6 ∣ buf.count →
        parseEndToEnd dl buf =
          (List.range (buf.count / 6)).filterMap (rowCandidate dl buf)) ∧
    (∀ dl : String → String,
        parseEndToEnd dl twoRowBuf = [twoRowDet0 dl, twoRowDet1 dl]) ∧
    (∀ dl : String → String, parseMobile dl zeroBuf4999 = []) ∧
    (∀ dl : String → String, parseMobile dl zeroBuf5000 = []) := by
  refine ⟨?_, ?_, ?_, ?_, ?_, ?_⟩
  · intro dl buf h
    rw [parseMobile, if_pos h]
  · intro dl buf h
    rw [parseMobile, if_neg (by omega)]
  · intro dl buf h
    unfold parseEndToEnd e2eRows
    obtain ⟨k, hk⟩ := h
    congr 2
    omega
  · intro dl
    with_unfolding_all rfl
  · intro dl
    rw [parseMobile, if_pos (by decide)]
    exact parseEndToEnd_zeroval fun j => rfl
  · intro dl
    rw [parseMobile, if_neg (by decide)]
    exact parseDense_eq_nil_of_short (by decide)

/-- C1 witness: the dispatch equations at the concrete boundary buffers and
the row equation at the concrete multiple-of-6 buffer. -/
theorem C1_layout_dispatch_witness :
    parseMobile (fun s => s) zeroBuf4999 = parseEndToEnd (fun s => s) zeroBuf4999 ∧
    parseMobile (fun s => s) zeroBuf5000 = parseDense (fun s => s) zeroBuf5000 ∧
    parseEndToEnd (fun s => s) twoRowBuf =
      (List.range (twoRowBuf.count / 6)).filterMap
        (rowCandidate (fun s => s) twoRowBuf) :=
  ⟨C1_layout_dispatch.1 _ zeroBuf4999 (by decide),
   C1_layout_dispatch.2.1 _ zeroBuf5000 (by decide),
   C1_layout_dispatch.2.2.1 _ twoRowBuf (by decide)⟩

set_option maxRecDepth 40000 in
/-- C2: decoding the dense-anchor buffer holding exactly one "bottle" anchor
at (cx=320, cy=500, w=80, h=200) with class score 0.5 (all other entries 0),
then gating and suppressing, yields exactly one Detection carrying the bottle
class's display label, with the medium proximity tier (the area ratio
80·200/640² is exactly 0.0390625, which is ≤ 0.12 and > 0.035) and the center
direction. -/
theorem C2_dense_bottle_scenario (dl : String → String) :
    parseMobile dl bottleAnchorBuf = [bottleDet dl] ∧
    applyNMSMobile [bottleDet dl] = [bottleDet dl] ∧
    (bottleDet dl).label = dl "bottle" ∧
    (bottleDet dl).score = 1/2 ∧
    ((80 * 200 : ℚ) / (640 * 640)) = 0.0390625 ∧
    getProximity ((80 * 200 : ℚ) / (640 * 640)) = .medium ∧
    getDirection 320 640 = .center := by
  refine ⟨?_, ?_, rfl, rfl, by norm_num, by norm_num [getProximity],
    by norm_num [getDirection]⟩
  · rw [parseMobile, if_neg (by decide)]
    unfold parseDense
    refine filterMap_range_single (by norm_num) ?_ ?_
    · with_unfolding_all rfl
    · intro i hi0 hin
      refine anchorCandidate_none_of_argMax_init ?_
      refine denseArgMax_eq_init fun c hc => ?_
      right
      rw [List.mem_range] at hc
      unfold RawOutput.read?
      rw [if_pos (by simp only [bottleAnchorBuf]; omega)]
      refine congrArg some ?_
      show bottleAnchorBuf.val ((4 + c) * 8400 + i) = 0
      simp only [bottleAnchorBuf]
      rw [if_neg (by omega), if_neg (by omega), if_neg (by omega),
        if_neg (by omega), if_neg (by omega)]
  · rw [applyNMSMobile, if_pos (by norm_num)]

/-- C9 counterexample: the 7-element buffer (count < 5000 and not a multiple
of 6) matches neither layout's assumptions, yet the mobile decoder returns a
non-empty candidate list — its first complete 6-value row passes the gate —
contradicting the claim that decode returns an empty list for such a frame. -/
theorem C9_malformed_decode_cex :
    parseMobile (fun s => s) malformedBuf7 ≠ [] :=
  of_decide_eq_true (by with_unfolding_all rfl)

/-- C9 (amended): decode is total and locally recovers — a dense-anchor-branch
buffer too short to cover the per-class score rows yields an empty list, an
end-to-end row whose score slot lies beyond the buffer is skipped (though
earlier complete rows may still yield candidates, so the whole list need not
be empty), and the web parser returns an empty list whenever the prediction
shape matches neither layout. -/
theorem C9_malformed_decode :
    (∀ (dl : String → String) (buf : RawOutput), 5000 ≤ buf.count →
        buf.count ≤ 33600 → parseMobile dl buf = []) ∧
    (∀ (dl : String → String) (buf : RawOutput) (i : ℕ),
        buf.count ≤ 6 * i + 4 → rowCandidate dl buf i = none) ∧
    (∀ (pred : List (List ℚ)) (cw ch : ℚ) (names : List String),
        ¬(pred.length = 300 ∧ (pred.headD []).length = 6) →
        (pred.headD []).length ≠ 8400 →
        parseYoloToDetections pred cw ch names = []) := by
  refine ⟨?_, ?_, ?_⟩
  · intro dl buf h1 h2
    rw [parseMobile, if_neg (by omega)]
    exact parseDense_eq_nil_of_short h2
  · intro dl buf i h
    exact rowCandidate_none_of_oob h
  · intro pred cw ch names h1 h2
    simp only [parseYoloToDetections, h1, h2, if_false]

/-- C9 witness: the amended behaviors at concrete inputs — a 5000-element
zero buffer decodes to the empty list, the malformed 7-element buffer's
incomplete row 1 is skipped, and a web prediction of neither shape parses to
the empty list. -/
theorem C9_malformed_decode_witness :
    parseMobile (fun s => s) zeroBuf5000 = [] ∧
    rowCandidate (fun s => s) malformedBuf7 1 = none ∧
    parseYoloToDetections [[1, 2, 3]] 640 640 CLASS_NAMES = [] :=
  ⟨C9_malformed_decode.1 _ zeroBuf5000 (by decide) (by decide),
   C9_malformed_decode.2.1 _ malformedBuf7 1 (by decide),
   C9_malformed_decode.2.2 [[1, 2, 3]] 640 640 CLASS_NAMES (by decide) (by decide)⟩

/-! ## Confidence-gate claim (C3) -/

set_option maxRecDepth 8000 in
/-- C3 counterexample: the web end-to-end gate uses `score < minConf → skip`,
so a candidate whose score exactly equals its class threshold (here a "person"
row with score exactly `MIN_CONFIDENCE` = 0.08) is KEPT, contradicting the
claim that a score equal to the threshold is excluded. -/
theorem C3_gate_boundary_cex :
    parseYoloToDetections boundaryPred 640 640 CLASS_NAMES = [boundaryDet] ∧
    boundaryDet.score = MIN_CONFIDENCE := by
  refine ⟨?_, rfl⟩
  rw [parseYoloToDetections, if_pos ⟨by simp [boundaryPred], rfl⟩]
  rw [show boundaryPred = boundaryRow :: List.replicate 299 zeroRow from rfl,
    List.filterMap_cons,
    show webE2ERow 640 640 CLASS_NAMES boundaryRow = some boundaryDet from by
      with_unfolding_all rfl]
  show boundaryDet ::
      (List.replicate 299 zeroRow).filterMap (webE2ERow 640 640 CLASS_NAMES) =
    [boundaryDet]
  have hnil : (List.replicate 299 zeroRow).filterMap
      (webE2ERow 640 640 CLASS_NAMES) = [] := by
    refine List.filterMap_eq_nil_iff.mpr fun a ha => ?_
    rw [List.eq_of_mem_replicate ha]
    with_unfolding_all rfl
  rw [hnil]

/-- C3 (amended): the mobile gate keeps a decoded row iff its score is
STRICTLY greater than the threshold of its class (a score exactly equal to the
threshold is excluded), while the web end-to-end gate keeps a row iff its
score is greater than OR EQUAL to the threshold (a score exactly equal to the
threshold is kept) — the two platform copies disagree at the boundary. -/
theorem C3_gate_boundary :
    (∀ (dl : String → String) (buf : RawOutput) (i : ℕ), 6 * i + 5 < buf.count →
        ((rowCandidate dl buf i).isSome ↔
          minConfFor (classNameAt (round (buf.val (6 * i + 5)))) <
            buf.val (6 * i + 4))) ∧
    (∀ (cw ch : ℚ) (names : List String) (det : List ℚ),
        (webE2ERow cw ch names det).isSome ↔
          webMinConf names (round (det.getD 5 0)) ≤ det.getD 4 0) := by
  constructor
  · intro dl buf i h
    unfold rowCandidate
    simp only [RawOutput.read?]
    rw [if_pos h, if_pos (by omega)]
    dsimp only
    by_cases h2 : buf.val (6 * i + 4) >
        minConfFor (classNameAt (round (buf.val (6 * i + 5))))
    · rw [if_pos h2]
      exact iff_of_true rfl h2
    · rw [if_neg h2]
      exact iff_of_false (by simp) h2
  · intro cw ch names det
    unfold webE2ERow
    dsimp only
    by_cases h2 : det.getD 4 0 < webMinConf names (round (det.getD 5 0))
    · rw [if_pos h2]
      exact iff_of_false (by simp) (not_le.mpr h2)
    · rw [if_neg h2]
      exact iff_of_true rfl (not_lt.mp h2)

/-- C3 witness: the mobile strict-gate characterization at row 0 of the
concrete two-row buffer. -/
theorem C3_gate_boundary_witness :
    6 * 0 + 5 < twoRowBuf.count ∧
    ((rowCandidate (fun s => s) twoRowBuf 0).isSome ↔
      minConfFor (classNameAt (round (twoRowBuf.val (6 * 0 + 5)))) <
        twoRowBuf.val (6 * 0 + 4)) :=
  ⟨by decide, C3_gate_boundary.1 _ twoRowBuf 0 (by decide)⟩

/-! ## Spatial-classifier claim (C6) -/

/-- C6: proximity is close iff the area ratio is strictly above 0.12, medium
iff it is strictly above 0.035 and at most 0.12, far otherwise — a ratio of
exactly 0.12 is medium and exactly 0.035 is far; direction is left iff the
horizontal center is strictly below frameWidth/3, right iff strictly above
2·frameWidth/3, center otherwise — a center exactly at frameWidth/3 is
center. -/
theorem C6_spatial_classifier :
    (∀ r : ℚ, getProximity r = .close ↔ 0.12 < r) ∧
    (∀ r : ℚ, getProximity r = .medium ↔ 0.035 < r ∧ r ≤ 0.12) ∧
    (∀ r : ℚ, getProximity r = .far ↔ r ≤ 0.035) ∧
    getProximity 0.12 = .medium ∧
    getProximity 0.035 = .far ∧
    (∀ cx fw : ℚ, 0 < fw →
      ((getDirection cx fw = .left ↔ cx < fw / 3) ∧
       (getDirection cx fw = .right ↔ 2 * fw / 3 < cx) ∧
       (getDirection cx fw = .center ↔ fw / 3 ≤ cx ∧ cx ≤ 2 * fw / 3))) ∧
    (∀ fw : ℚ, 0 < fw → getDirection (fw / 3) fw = .center) := by
  refine ⟨?_, ?_, ?_, by norm_num [getProximity], by norm_num [getProximity],
    ?_, ?_⟩
  · intro r
    unfold getProximity
    split_ifs with h1 h2
    · exact iff_of_true rfl h1
    · exact iff_of_false (by decide) h1
    · exact iff_of_false (by decide) h1
  · intro r
    unfold getProximity
    split_ifs with h1 h2
    · exact iff_of_false (by decide)
        (fun hc => absurd h1 (not_lt.mpr hc.2))
    · exact iff_of_true rfl ⟨h2, not_lt.mp h1⟩
    · exact iff_of_false (by decide)
        (fun hc => h2 hc.1)
  · intro r
    unfold getProximity
    split_ifs with h1 h2
    · exact iff_of_false (by decide)
        (fun hc => absurd (lt_of_le_of_lt hc (by norm_num)) (not_lt.mpr (le_of_lt h1)))
    · exact iff_of_false (by decide) (not_le.mpr h2)
    · exact iff_of_true rfl (not_lt.mp h2)
  · intro cx fw hfw
    unfold getDirection
    dsimp only
    split_ifs with h1 h2
    · refine ⟨iff_of_true rfl h1, ?_, ?_⟩
      · exact iff_of_false (by decide)
          (fun hc => by linarith)
      · exact iff_of_false (by decide)
          (fun hc => by linarith [hc.1])
    · refine ⟨?_, iff_of_true rfl (by linarith), ?_⟩
      · exact iff_of_false (by decide) h1
      · exact iff_of_false (by decide)
          (fun hc => by linarith [hc.2])
    · refine ⟨?_, ?_, iff_of_true rfl ⟨not_lt.mp h1, by linarith⟩⟩
      · exact iff_of_false (by decide) h1
      · exact iff_of_false (by decide)
          (fun hc => h2 (by linarith))
  · intro fw hfw
    unfold getDirection
    dsimp only
    rw [if_neg (lt_irrefl _), if_neg (by intro h; linarith)]

/-- C6 witness: the frame width 640 is positive and a horizontal center of
exactly 640/3 classifies as center. -/
theorem C6_spatial_classifier_witness :
    (0 : ℚ) < 640 ∧ getDirection ((640 : ℚ) / 3) 640 = .center :=
  ⟨by norm_num, C6_spatial_classifier.2.2.2.2.2.2 640 (by norm_num)⟩

/-! ## Voice-alert builder claim (C7) -/

/-- C7 counterexample: on a single close-and-centered detection the builder
does not return exactly `"Caution. "` followed by the period-joined
`"{label} ahead"` parts — it appends one more terminating period. -/
theorem C7_voice_alert_cex :
    buildVoiceAlert [closeAheadDet] 4 ≠
      "Caution. " ++ String.intercalate ". " ["bottle / water bottle ahead"] ∧
    buildVoiceAlert [closeAheadDet] 4 =
      "Caution. bottle / water bottle ahead." :=
  ⟨of_decide_eq_true (by with_unfolding_all rfl), by with_unfolding_all rfl⟩

/-- C7 (amended): under the strict policy the alert builder selects exactly
the detections with proximity close AND direction center, takes at most 4 in
their existing order, returns the empty message when none qualify, and
otherwise returns `"Caution. "` followed by the `"{label} ahead"` parts joined
with period separators and a final terminating period. -/
theorem C7_voice_alert (ds : List Detection) :
    buildVoiceAlert ds 4 =
      (if (ds.filter fun d =>
            decide (d.proximity = .close ∧ d.direction = .center)).take 4 = []
       then ""
       else "Caution. " ++ String.intercalate ". "
          (((ds.filter fun d =>
              decide (d.proximity = .close ∧ d.direction = .center)).take 4).map
            fun d => d.label ++ " ahead") ++ ".") := by
  unfold buildVoiceAlert VOICE_ONLY_CLOSE_AND_AHEAD
  rw [if_pos rfl]
  by_cases h : (ds.filter fun d =>
      decide (d.proximity = .close ∧ d.direction = .center)).take 4 = []
  · rw [if_pos (List.isEmpty_iff.mpr h), if_pos h]
  · rw [if_neg (fun hc => h (List.isEmpty_iff.mp hc)), if_neg h]

/-! ## Alert-scheduler claim (C8) -/

/-- C8 counterexample: an evaluation whose cooldown has elapsed but whose
detection set has no alert-worthy item emits nothing yet still records the
timestamp, and that recorded timestamp then suppresses an alert-worthy
evaluation 1000 ms later — contradicting the claim that an idle evaluation
with no alert-worthy items records no timestamp and remains idle. -/
theorem C8_alert_cooldown_cex :
    (voiceTick ⟨0⟩ 5000 []).1 ≠ (⟨0⟩ : AlertState) ∧
    (voiceTick ⟨0⟩ 5000 []).2 = none ∧
    (voiceTick (voiceTick ⟨0⟩ 5000 []).1 6000 [closeAheadDet]).2 = none :=
  ⟨of_decide_eq_true (by with_unfolding_all rfl),
   by with_unfolding_all rfl, by with_unfolding_all rfl⟩

/-- C8 (amended): each scheduling evaluation whose distance from the recorded
timestamp has reached 4000 ms refreshes the timestamp — whether or not any
item is alert-worthy — and speaks exactly when the built message is nonempty;
an evaluation inside the 4000 ms window changes nothing and emits nothing.
Consequently, of two alert-worthy evaluations 1000 ms apart (the first at or
past the interval) only the first speaks, and an evaluation 4000 ms after the
first speaks again. -/
theorem C8_alert_cooldown :
    (∀ (st : AlertState) (now : ℚ) (items : List Detection),
        now - st.lastVoiceTime ≥ 4000 →
        voiceTick st now items =
          (⟨now⟩, if buildVoiceAlert items 4 = "" then none
                  else some (buildVoiceAlert items 4))) ∧
    (∀ (st : AlertState) (now : ℚ) (items : List Detection),
        now - st.lastVoiceTime < 4000 →
        voiceTick st now items = (st, none)) ∧
    (∀ (st : AlertState) (t : ℚ) (items1 items2 items3 : List Detection),
        t - st.lastVoiceTime ≥ 4000 →
        buildVoiceAlert items1 4 ≠ "" →
        buildVoiceAlert items3 4 ≠ "" →
        (voiceTick st t items1).2 = some (buildVoiceAlert items1 4) ∧
        (voiceTick (voiceTick st t items1).1 (t + 1000) items2).2 = none ∧
        (voiceTick (voiceTick (voiceTick st t items1).1 (t + 1000) items2).1
            (t + 4000) items3).2 = some (buildVoiceAlert items3 4)) := by
  have hfire : ∀ (st : AlertState) (now : ℚ) (items : List Detection),
      now - st.lastVoiceTime ≥ 4000 →
      voiceTick st now items =
        (⟨now⟩, if buildVoiceAlert items 4 = "" then none
                else some (buildVoiceAlert items 4)) := by
    intro st now items h
    rw [voiceTick, if_pos (show now - st.lastVoiceTime ≥ VOICE_ALERT_INTERVAL_MS from h)]
  have hwait : ∀ (st : AlertState) (now : ℚ) (items : List Detection),
      now - st.lastVoiceTime < 4000 →
      voiceTick st now items = (st, none) := by
    intro st now items h
    rw [voiceTick, if_neg (show ¬ now - st.lastVoiceTime ≥ VOICE_ALERT_INTERVAL_MS from
      not_le.mpr h)]
  refine ⟨hfire, hwait, ?_⟩
  intro st t items1 items2 items3 hge hne1 hne3
  have e1 : voiceTick st t items1 =
      (⟨t⟩, some (buildVoiceAlert items1 4)) := by
    rw [hfire st t items1 hge, if_neg hne1]
  have e2 : voiceTick (⟨t⟩ : AlertState) (t + 1000) items2 =
      ((⟨t⟩ : AlertState), none) := by
    refine hwait _ _ _ ?_
    show t + 1000 - t < 4000
    linarith
  have e3 : voiceTick (⟨t⟩ : AlertState) (t + 4000) items3 =
      ((⟨t + 4000⟩ : AlertState),
        some (buildVoiceAlert items3 4)) := by
    rw [hfire _ _ _ (show t + 4000 - t ≥ 4000 by linarith), if_neg hne3]
  refine ⟨by rw [e1], by rw [e1, e2], by rw [e1, e2, e3]⟩

/-- C8 witness: the cooldown scenario at a concrete trace — initial state 0,
an alert-worthy evaluation at 5000 ms fires, an equally alert-worthy
evaluation 1000 ms later is silent, and an evaluation 4000 ms after the first
fires again. -/
theorem C8_alert_cooldown_witness :
    (voiceTick ⟨0⟩ 5000 [closeAheadDet]).2 =
      some (buildVoiceAlert [closeAheadDet] 4) ∧
    (voiceTick (voiceTick ⟨0⟩ 5000 [closeAheadDet]).1 (5000 + 1000)
        [closeAheadDet]).2 = none ∧
    (voiceTick (voiceTick (voiceTick ⟨0⟩ 5000 [closeAheadDet]).1
        (5000 + 1000) [closeAheadDet]).1 (5000 + 4000) [closeAheadDet]).2 =
      some (buildVoiceAlert [closeAheadDet] 4) :=
  C8_alert_cooldown.2.2 ⟨0⟩ 5000 [closeAheadDet] [closeAheadDet] [closeAheadDet]
    (by norm_num)
    (of_decide_eq_true (by with_unfolding_all rfl))
    (of_decide_eq_true (by with_unfolding_all rfl))

end Pipeline
